import Mathlib

/-!
# Verification of the FIFO ledger engine of `transaction_parser.py`

This file gives a shallow embedding of the lot-matching / realized-P&L
core of the holding-analyzer repository (`src/transaction_parser.py`,
principally `calculate_holdings`, `get_action_rank` and the sorting done
by `load_all_transactions`), and proves the specification claims about it.

Modelling conventions:
* pandas float values that may be missing/NaN are modelled as `Option ℚ`
  (`none` = NaN); arithmetic on them propagates `none` exactly as IEEE
  arithmetic propagates NaN for `+`, `-`, `*` and `abs`;
* quantities, commissions and dates are taken to be well-formed (plain `ℚ`
  resp. `ℤ`), as the claims under study never involve missing quantities;
* Python dicts are modelled as association lists in insertion order
  (`setAssoc` updates in place or appends a fresh key at the tail, exactly
  like Python dict assignment);
* descriptions are modelled as the already upper-cased strings the code
  compares against (the code calls `.upper()` before every test).
-/

namespace HoldingAnalyzer

/-- A possibly-NaN float value (`none` = NaN / missing). -/
abbrev OQ := Option ℚ

/-- NaN-propagating addition. -/
def oadd : OQ → OQ → OQ
  | some a, some b => some (a + b)
  | _, _ => none

/-- NaN-propagating subtraction. -/
def osub : OQ → OQ → OQ
  | some a, some b => some (a - b)
  | _, _ => none

/-- NaN-propagating multiplication. -/
def omul : OQ → OQ → OQ
  | some a, some b => some (a * b)
  | _, _ => none

/-- Division of a possibly-NaN value by a plain rational (`cost / quantity`). -/
def odivq (x : OQ) (q : ℚ) : OQ := x.map (fun a => a / q)

/-- Python's `sum(...)` over possibly-NaN values (fold of `oadd` from 0). -/
def osum (l : List OQ) : OQ := l.foldr oadd (some 0)

/-- Python's `needle in haystack` substring test, on character lists. -/
def hasInfixAux (needle : List Char) : List Char → Bool
  | [] => needle.isEmpty
  | c :: rest => needle.isPrefixOf (c :: rest) || hasInfixAux needle rest

/-- Python's `needle in haystack` substring test on strings. -/
def containsSub (hay needle : String) : Bool := hasInfixAux needle.data hay.data

/-- Canonical action produced by the per-broker action classifiers. -/
inductive Action where
  | BUY | SELL | DIV | OTHER
  deriving DecidableEq, Repr

/-- A canonical transaction row (one row of the dataframe handed to
`calculate_holdings`): `Date, Symbol, Action, Quantity, Price, Commission,
Amount, Currency, Description`. -/
structure Tx where
  date : ℤ
  symbol : String
  action : Action
  quantity : ℚ
  price : OQ
  commission : ℚ
  amount : OQ
  currency : String
  description : String
  deriving DecidableEq, Repr

/-- A tax lot as stored in `lots[sym]` by `calculate_holdings`. -/
structure Lot where
  tradeDate : ℤ
  quantity : ℚ
  cost : OQ
  purchasePrice : OQ
  commission : ℚ
  currency : String
  description : String
  deriving DecidableEq, Repr

/-- `'MERGER' in desc or 'ADJUSTMENT' in desc or 'REORG' in desc`. -/
def isMergerDesc (desc : String) : Bool :=
  containsSub desc "MERGER" || containsSub desc "ADJUSTMENT" || containsSub desc "REORG"

/-- Merger receipt test of the BUY branch:
`'RECEIVED' in desc and ('MERGER' in desc or 'ADJUSTMENT' in desc or 'REORG' in desc)`. -/
def isMergerReceipt (desc : String) : Bool :=
  containsSub desc "RECEIVED" && isMergerDesc desc

/-- Merger surrender test of the SELL branch:
`'SURRENDERED' in desc and ('MERGER' in desc or 'ADJUSTMENT' in desc or 'REORG' in desc)`. -/
def isMergerSurrender (desc : String) : Bool :=
  containsSub desc "SURRENDERED" && isMergerDesc desc

/-- Line 308: `cost = abs(Amount) if Amount != 0 and not isna(Amount) else qty*price + comm`.
(`NaN != 0` is true in Python but the `isna` test sends NaN to the fallback.) -/
def buyCost (tx : Tx) : OQ :=
  match tx.amount with
  | some a => if a ≠ 0 then some |a| else oadd (omul (some tx.quantity) tx.price) (some tx.commission)
  | none => oadd (omul (some tx.quantity) tx.price) (some tx.commission)

/-- Line 333: `total_proceeds = Amount if Amount != 0 and not isna(Amount) else qty*price - comm`. -/
def sellProceeds (tx : Tx) : OQ :=
  match tx.amount with
  | some a => if a ≠ 0 then some a else osub (omul (some tx.quantity) tx.price) (some tx.commission)
  | none => osub (omul (some tx.quantity) tx.price) (some tx.commission)

/-- Python dict assignment `m[k] = v` on an insertion-ordered association list. -/
def setAssoc {α : Type} : List (String × α) → String → α → List (String × α)
  | [], k, v => [(k, v)]
  | (k', v') :: rest, k, v =>
      if k' = k then (k', v) :: rest else (k', v') :: setAssoc rest k v

/-- Python dict `m.pop(k)`'s removal effect. -/
def removeAssoc {α : Type} : List (String × α) → String → List (String × α)
  | [], _ => []
  | (k', v') :: rest, k => if k' = k then rest else (k', v') :: removeAssoc rest k

/-- The mutable state of `calculate_holdings`:
`lots`, `realized_pnl` and `merger_basis_carryover`. -/
structure Ledger where
  lots : List (String × List Lot)
  realized : List (String × List (String × OQ))
  carryover : List (String × OQ)
  deriving DecidableEq, Repr

/-- The initial (all-empty) ledger state. -/
def Ledger.init : Ledger := ⟨[], [], []⟩

/-- The `while remaining_sell_qty > 0 and lots[sym]:` loop of the SELL branch
(lines 338–370).  Returns the new lot queue, the updated `realized_pnl[sym]`
currency map, and the updated carryover dict. -/
def sellLoop (sym curr : String) (sellQty : ℚ) (proceeds : OQ) (isMS : Bool) :
    ℚ → List Lot → List (String × OQ) → List (String × OQ) →
    List Lot × List (String × OQ) × List (String × OQ)
  | _, [], pnlSym, carry => ([], pnlSym, carry)
  | remaining, lot :: rest, pnlSym, carry =>
    if 0 < remaining then
      if lot.quantity ≤ remaining then
        -- full lot sold
        let soldQty := lot.quantity
        let costBasis := lot.cost
        let share := omul proceeds (some (soldQty / sellQty))
        if isMS then
          sellLoop sym curr sellQty proceeds isMS (remaining - soldQty) rest pnlSym
            (setAssoc carry sym (oadd ((List.lookup sym carry).getD (some 0)) costBasis))
        else
          sellLoop sym curr sellQty proceeds isMS (remaining - soldQty) rest
            (setAssoc pnlSym curr
              (oadd ((List.lookup curr pnlSym).getD (some 0)) (osub share costBasis)))
            carry
      else
        -- partial lot sold
        let soldQty := remaining
        let costBasis := omul lot.cost (some (soldQty / lot.quantity))
        let share := omul proceeds (some (soldQty / sellQty))
        let lot' : Lot :=
          { lot with quantity := lot.quantity - soldQty, cost := osub lot.cost costBasis }
        if isMS then
          (lot' :: rest, pnlSym,
           setAssoc carry sym (oadd ((List.lookup sym carry).getD (some 0)) costBasis))
        else
          (lot' :: rest,
           setAssoc pnlSym curr
             (oadd ((List.lookup curr pnlSym).getD (some 0)) (osub share costBasis)),
           carry)
    else (lot :: rest, pnlSym, carry)

/-- The BUY branch of `calculate_holdings` (lines 303–326). -/
def processBuy (st : Ledger) (tx : Tx) : Ledger :=
  let queue := (List.lookup tx.symbol st.lots).getD []
  let cost0 := buyCost tx
  let costCarry : OQ × List (String × OQ) :=
    if isMergerReceipt tx.description then
      match List.lookup tx.symbol st.carryover with
      | some v => (oadd cost0 v, removeAssoc st.carryover tx.symbol)
      | none =>
        if containsSub tx.symbol "WCP" then
          match List.lookup "WCP" st.carryover with
          | some v => (oadd cost0 v, removeAssoc st.carryover "WCP")
          | none => (cost0, st.carryover)
        else (cost0, st.carryover)
    else (cost0, st.carryover)
  let lot : Lot :=
    { tradeDate := tx.date
      quantity := tx.quantity
      cost := costCarry.1
      purchasePrice := if 0 < tx.quantity then odivq costCarry.1 tx.quantity else tx.price
      commission := tx.commission
      currency := tx.currency
      description := tx.description }
  { st with lots := setAssoc st.lots tx.symbol (queue ++ [lot]), carryover := costCarry.2 }

/-- Line 330: `if sym not in realized_pnl: realized_pnl[sym] = {}`. -/
def realizedInit (st : Ledger) (tx : Tx) : List (String × List (String × OQ)) :=
  match List.lookup tx.symbol st.realized with
  | none => setAssoc st.realized tx.symbol []
  | some _ => st.realized

/-- The SELL branch of `calculate_holdings` (lines 327–373); a SELL for a
symbol with no lot entry is silently ignored (`pass`). -/
def processSell (st : Ledger) (tx : Tx) : Ledger :=
  match List.lookup tx.symbol st.lots with
  | none => st
  | some queue =>
    let realized0 := realizedInit st tx
    let pnlSym := (List.lookup tx.symbol realized0).getD []
    let res := sellLoop tx.symbol tx.currency tx.quantity (sellProceeds tx)
      (isMergerSurrender tx.description) tx.quantity queue pnlSym st.carryover
    { lots := setAssoc st.lots tx.symbol res.1
      realized := setAssoc realized0 tx.symbol res.2.1
      carryover := res.2.2 }

/-- One iteration of the transaction loop of `calculate_holdings`. -/
def processTx (st : Ledger) (tx : Tx) : Ledger :=
  match tx.action with
  | .BUY => processBuy st tx
  | .SELL => processSell st tx
  | _ => st

/-- The whole transaction loop of `calculate_holdings`. -/
def runLedger (txs : List Tx) : Ledger := txs.foldl processTx Ledger.init

/-- A derived holding row (lines 389–396). -/
structure Holding where
  symbol : String
  quantity : ℚ
  purchasePrice : OQ
  tradeDate : Option ℤ
  commission : ℚ
  currency : String
  deriving DecidableEq, Repr

/-- Line 377: `valid_lots = [lot for lot in symbol_lots if lot.Quantity > 0.0001]`. -/
def validLots (l : List Lot) : List Lot := l.filter (fun lot => (1 : ℚ)/10000 < lot.quantity)

/-- Sum of lot quantities. -/
def sumQty (l : List Lot) : ℚ := (l.map Lot.quantity).sum

/-- Python `sum(lot.Cost for lot in valid_lots)`. -/
def sumCosts (l : List Lot) : OQ := osum (l.map Lot.cost)

/-- The per-symbol holding row of lines 376–396 (`none` when no valid lots remain). -/
def holdingOf (sym : String) (symbolLots : List Lot) : Option Holding :=
  match validLots symbolLots with
  | [] => none
  | l0 :: ls =>
    let totalQ := sumQty (l0 :: ls)
    some { symbol := sym
           quantity := totalQ
           purchasePrice := if 0 < totalQ then odivq (sumCosts (l0 :: ls)) totalQ else some 0
           tradeDate := some ((ls.map Lot.tradeDate).foldl max l0.tradeDate)
           commission := ((l0 :: ls).map Lot.commission).sum
           currency := l0.currency }

/-- The holdings dataframe assembled at the bottom of `calculate_holdings`. -/
def holdingsOf (lotsDict : List (String × List Lot)) : List Holding :=
  lotsDict.filterMap (fun p => holdingOf p.1 p.2)

/-- `calculate_holdings`: the holdings rows and the realized-P&L map. -/
def calculate_holdings (txs : List Tx) : List Holding × List (String × List (String × OQ)) :=
  let st := runLedger txs
  (holdingsOf st.lots, st.realized)

/-- `get_action_rank` (lines 261–274). -/
def get_action_rank (tx : Tx) : ℕ :=
  if tx.action = .SELL ∧ isMergerDesc tx.description = true ∧
      containsSub tx.description "SURRENDERED" = true then 0
  else if tx.action = .BUY then 1
  else if tx.action = .SELL then 2
  else if tx.action = .DIV then 3
  else 99

/-- The boolean comparison realising `sort_values(['Date', 'Action_Rank'])`. -/
def keyLE (a b : Tx) : Bool :=
  decide (a.date < b.date ∨ (a.date = b.date ∧ get_action_rank a ≤ get_action_rank b))

/-- The sort performed by `load_all_transactions` (line 277). -/
def sortTxs (txs : List Tx) : List Tx := txs.mergeSort keyLE

/-- The stream handed to `calculate_holdings`: sorted, then rows with an
empty symbol removed (line 280). -/
def orderedStream (txs : List Tx) : List Tx :=
  (sortTxs txs).filter (fun tx => !(tx.symbol == ""))

/-- The lot appended by an ordinary BUY (no merger carryover available). -/
def mkBuyLot (tx : Tx) : Lot :=
  { tradeDate := tx.date
    quantity := tx.quantity
    cost := buyCost tx
    purchasePrice := if 0 < tx.quantity then odivq (buyCost tx) tx.quantity else tx.price
    commission := tx.commission
    currency := tx.currency
    description := tx.description }

/-! ## Association-list and Option-arithmetic lemmas -/

theorem lookup_setAssoc {α : Type} (m : List (String × α)) (k q : String) (v : α) :
    List.lookup q (setAssoc m k v) = if q = k then some v else List.lookup q m := by
  induction m with
  | nil =>
    by_cases h : q = k
    · simp [setAssoc, List.lookup, h]
    · simp [setAssoc, List.lookup, h, beq_eq_false_iff_ne.mpr h]
  | cons p rest ih =>
    obtain ⟨k', v'⟩ := p
    by_cases hk : k' = k
    · subst hk
      by_cases hq : q = k'
      · simp [setAssoc, List.lookup, hq]
      · simp [setAssoc, List.lookup, hq, beq_eq_false_iff_ne.mpr hq]
    · by_cases hq : q = k'
      · subst hq
        simp [setAssoc, List.lookup, hk, Ne.symm hk]
      · simp [setAssoc, List.lookup, hk, hq, beq_eq_false_iff_ne.mpr hq, ih]

theorem oadd_zero_left (x : OQ) : oadd (some 0) x = x := by
  cases x <;> simp [oadd]

theorem oadd_zero_right (x : OQ) : oadd x (some 0) = x := by
  cases x <;> simp [oadd]

theorem oadd_assoc (x y z : OQ) : oadd (oadd x y) z = oadd x (oadd y z) := by
  cases x <;> cases y <;> cases z <;> simp [oadd, add_assoc]

theorem osub_omul_combine (P c d : OQ) (x y : ℚ) :
    oadd (osub (omul P (some x)) c) (osub (omul P (some y)) d)
      = osub (omul P (some (x + y))) (oadd c d) := by
  cases P <;> cases c <;> cases d <;> simp [oadd, osub, omul]
  ring

theorem osum_cons (c : OQ) (l : List OQ) : osum (c :: l) = oadd c (osum l) := rfl

theorem sumQty_nil : sumQty [] = 0 := rfl

theorem sumQty_cons (lot : Lot) (l : List Lot) :
    sumQty (lot :: l) = lot.quantity + sumQty l := by
  simp [sumQty]

theorem sumQty_nonneg (l : List Lot) (h : ∀ lot ∈ l, 0 < lot.quantity) : 0 ≤ sumQty l := by
  induction l with
  | nil => simp [sumQty]
  | cons lot rest ih =>
    rw [sumQty_cons]
    have h1 := h lot (by simp)
    have h2 := ih (fun x hx => h x (by simp [hx]))
    linarith

/-! ## The sell loop -/

theorem sellLoop_liquidate (sym curr : String) (Q : ℚ) (P : OQ) :
    ∀ (queue : List Lot) (remaining : ℚ) (pnlSym carry : List (String × OQ)),
    (∀ lot ∈ queue, 0 < lot.quantity) → sumQty queue ≤ remaining →
    (sellLoop sym curr Q P false remaining queue pnlSym carry).1 = [] ∧
    (sellLoop sym curr Q P false remaining queue pnlSym carry).2.2 = carry ∧
    (queue ≠ [] →
      List.lookup curr (sellLoop sym curr Q P false remaining queue pnlSym carry).2.1
        = some (oadd ((List.lookup curr pnlSym).getD (some 0))
            (osub (omul P (some (sumQty queue / Q))) (osum (queue.map Lot.cost))))) ∧
    (queue = [] → (sellLoop sym curr Q P false remaining queue pnlSym carry).2.1 = pnlSym) := by
  intro queue
  induction queue with
  | nil =>
    intro remaining pnlSym carry _ _
    simp [sellLoop]
  | cons lot rest ih =>
    intro remaining pnlSym carry hpos hsum
    have hlot : 0 < lot.quantity := hpos lot (by simp)
    have hrest : ∀ l ∈ rest, 0 < l.quantity := fun l hl => hpos l (by simp [hl])
    have hsumr : 0 ≤ sumQty rest := sumQty_nonneg rest hrest
    rw [sumQty_cons] at hsum
    have hsum' : sumQty rest ≤ remaining - lot.quantity := by linarith
    have hr0 : 0 < remaining := by linarith
    have hle : lot.quantity ≤ remaining := by linarith
    have step :
        sellLoop sym curr Q P false remaining (lot :: rest) pnlSym carry
          = sellLoop sym curr Q P false (remaining - lot.quantity) rest
              (setAssoc pnlSym curr
                (oadd ((List.lookup curr pnlSym).getD (some 0))
                  (osub (omul P (some (lot.quantity / Q))) lot.cost)))
              carry := by
      rw [sellLoop, if_pos hr0, if_pos hle]
      simp
    obtain ⟨h1, h2, h3, h4⟩ :=
      ih (remaining - lot.quantity)
        (setAssoc pnlSym curr
          (oadd ((List.lookup curr pnlSym).getD (some 0))
            (osub (omul P (some (lot.quantity / Q))) lot.cost)))
        carry hrest hsum'
    refine ⟨by rw [step]; exact h1, by rw [step]; exact h2, ?_, by simp⟩
    intro _
    rw [step]
    rcases eq_or_ne rest [] with hrnil | hrne
    · subst hrnil
      rw [h4 rfl, lookup_setAssoc, if_pos rfl]
      simp [sumQty_cons, sumQty_nil, osum_cons, osum, oadd_zero_right]
    · rw [h3 hrne, lookup_setAssoc, if_pos rfl]
      simp only [Option.getD_some]
      rw [oadd_assoc, osub_omul_combine, div_add_div_same, ← sumQty_cons]
      simp [osum_cons]

theorem sellLoop_pos (sym curr : String) (Q : ℚ) (P : OQ) (isMS : Bool) :
    ∀ (queue : List Lot) (remaining : ℚ) (pnlSym carry : List (String × OQ)),
    (∀ lot ∈ queue, 0 < lot.quantity) →
    ∀ lot ∈ (sellLoop sym curr Q P isMS remaining queue pnlSym carry).1, 0 < lot.quantity := by
  intro queue
  induction queue with
  | nil =>
    intro remaining pnlSym carry _
    simp [sellLoop]
  | cons lot rest ih =>
    intro remaining pnlSym carry h
    have hlot : 0 < lot.quantity := h lot (by simp)
    have hrest : ∀ l ∈ rest, 0 < l.quantity := fun l hl => h l (by simp [hl])
    rw [sellLoop]
    by_cases h1 : 0 < remaining
    · rw [if_pos h1]
      by_cases h2 : lot.quantity ≤ remaining
      · rw [if_pos h2]
        cases isMS <;> simp only [Bool.false_eq_true, if_false, if_true] <;>
          exact ih _ _ _ hrest
      · rw [if_neg h2]
        have hql : 0 < lot.quantity - remaining := by
          push_neg at h2; linarith
        cases isMS <;> simp only [Bool.false_eq_true, if_false, if_true] <;>
          (intro l hl
           rcases List.mem_cons.mp hl with hhead | htail
           · subst hhead; exact hql
           · exact hrest l htail)
    · rw [if_neg h1]
      intro l hl
      exact h l hl

/-! ## SELL processing reduction lemmas -/

theorem realizedInit_lookup (st : Ledger) (tx : Tx) :
    List.lookup tx.symbol (realizedInit st tx)
      = some ((List.lookup tx.symbol st.realized).getD []) := by
  unfold realizedInit
  cases h : List.lookup tx.symbol st.realized with
  | none => simp [h, lookup_setAssoc]
  | some l => simp [h]

theorem processSell_none (st : Ledger) (tx : Tx)
    (h : List.lookup tx.symbol st.lots = none) : processSell st tx = st := by
  unfold processSell
  rw [h]

theorem processSell_some (st : Ledger) (tx : Tx) (queue : List Lot)
    (hlk : List.lookup tx.symbol st.lots = some queue) :
    processSell st tx =
      { lots := setAssoc st.lots tx.symbol
          (sellLoop tx.symbol tx.currency tx.quantity (sellProceeds tx)
            (isMergerSurrender tx.description) tx.quantity queue
            ((List.lookup tx.symbol (realizedInit st tx)).getD []) st.carryover).1
        realized := setAssoc (realizedInit st tx) tx.symbol
          (sellLoop tx.symbol tx.currency tx.quantity (sellProceeds tx)
            (isMergerSurrender tx.description) tx.quantity queue
            ((List.lookup tx.symbol (realizedInit st tx)).getD []) st.carryover).2.1
        carryover :=
          (sellLoop tx.symbol tx.currency tx.quantity (sellProceeds tx)
            (isMergerSurrender tx.description) tx.quantity queue
            ((List.lookup tx.symbol (realizedInit st tx)).getD []) st.carryover).2.2 } := by
  unfold processSell
  rw [hlk]

/-! ## BUY processing lemmas -/

theorem processBuy_lots (st : Ledger) (tx : Tx) :
    ∃ lot : Lot, lot.quantity = tx.quantity ∧
      (processBuy st tx).lots
        = setAssoc st.lots tx.symbol (((List.lookup tx.symbol st.lots).getD []) ++ [lot]) :=
  ⟨_, rfl, rfl⟩

theorem processBuy_empty_carry (st : Ledger) (tx : Tx) (h : st.carryover = []) :
    processBuy st tx =
      { st with lots := setAssoc st.lots tx.symbol (((List.lookup tx.symbol st.lots).getD []) ++ [mkBuyLot tx]) } := by
  unfold processBuy mkBuyLot
  rw [h]
  cases hm : isMergerReceipt tx.description
  · simp [List.lookup, h]
  · cases hw : containsSub tx.symbol "WCP" <;> simp [List.lookup, h]

theorem foldl_buys (sym : String) (buys : List Tx)
    (h : ∀ b ∈ buys, b.action = .BUY ∧ b.symbol = sym) :
    ∀ acc : List Lot,
      List.foldl processTx ⟨[(sym, acc)], [], []⟩ buys
        = ⟨[(sym, acc ++ buys.map mkBuyLot)], [], []⟩ := by
  induction buys with
  | nil => intro acc; simp
  | cons b bs ih =>
    intro acc
    obtain ⟨hb, hsym⟩ := h b (by simp)
    have step : processTx ⟨[(sym, acc)], [], []⟩ b = ⟨[(sym, acc ++ [mkBuyLot b])], [], []⟩ := by
      have hp := processBuy_empty_carry ⟨[(sym, acc)], [], []⟩ b rfl
      simp only [processTx, hb]
      rw [hp, hsym]
      simp [List.lookup, setAssoc]
    rw [List.foldl_cons, step, ih (fun x hx => h x (by simp [hx])) (acc ++ [mkBuyLot b])]
    simp

theorem runLedger_buys (sym : String) (buys : List Tx)
    (h : ∀ b ∈ buys, b.action = .BUY ∧ b.symbol = sym) :
    ∀ b bs, buys = b :: bs →
      runLedger buys = ⟨[(sym, buys.map mkBuyLot)], [], []⟩ := by
  intro b bs hcons
  subst hcons
  obtain ⟨hb, hsym⟩ := h b (by simp)
  have step : processTx Ledger.init b = ⟨[(sym, [mkBuyLot b])], [], []⟩ := by
    have hp := processBuy_empty_carry Ledger.init b rfl
    simp only [processTx, hb]
    rw [hp, hsym]
    simp [Ledger.init, List.lookup, setAssoc]
  rw [runLedger, List.foldl_cons, step,
    foldl_buys sym bs (fun x hx => h x (by simp [hx])) [mkBuyLot b]]
  simp

/-! ## Positivity invariant for lot queues -/

/-- Every lot queue held by the ledger contains only positive-quantity lots. -/
def LotsPos (st : Ledger) : Prop :=
  ∀ sym queue, List.lookup sym st.lots = some queue → ∀ lot ∈ queue, 0 < lot.quantity

theorem processTx_pos (st : Ledger) (tx : Tx) (h : LotsPos st)
    (hq : tx.action = .BUY → 0 < tx.quantity) : LotsPos (processTx st tx) := by
  cases ha : tx.action with
  | BUY =>
    obtain ⟨newlot, hnq, hlots⟩ := processBuy_lots st tx
    intro sym q hlk l hl
    simp only [processTx, ha] at hlk
    rw [hlots, lookup_setAssoc] at hlk
    by_cases hsym : sym = tx.symbol
    · rw [if_pos hsym] at hlk
      cases hlk
      rcases List.mem_append.mp hl with hold | hnew
      · cases hlk0 : List.lookup tx.symbol st.lots with
        | none => rw [hlk0] at hold; simp at hold
        | some q0 =>
          rw [hlk0] at hold
          exact h tx.symbol q0 hlk0 l hold
      · rw [List.mem_singleton.mp hnew, hnq]
        exact hq ha
    · rw [if_neg hsym] at hlk
      exact h sym q hlk l hl
  | SELL =>
    intro sym q hlk l hl
    simp only [processTx, ha] at hlk
    unfold processSell at hlk
    cases hq0 : List.lookup tx.symbol st.lots with
    | none =>
      rw [hq0] at hlk
      exact h sym q hlk l hl
    | some queue0 =>
      rw [hq0] at hlk
      simp only at hlk
      rw [lookup_setAssoc] at hlk
      by_cases hsym : sym = tx.symbol
      · rw [if_pos hsym] at hlk
        cases hlk
        exact sellLoop_pos tx.symbol tx.currency tx.quantity (sellProceeds tx)
          (isMergerSurrender tx.description) queue0 tx.quantity _ st.carryover
          (h tx.symbol queue0 hq0) l hl
      · rw [if_neg hsym] at hlk
        exact h sym q hlk l hl
  | DIV =>
    simpa only [processTx, ha] using h
  | OTHER =>
    simpa only [processTx, ha] using h

theorem runLedger_pos (txs : List Tx)
    (h : ∀ tx ∈ txs, tx.action = .BUY → 0 < tx.quantity) : LotsPos (runLedger txs) := by
  have main : ∀ (l : List Tx) (st : Ledger),
      (∀ tx ∈ l, tx.action = .BUY → 0 < tx.quantity) → LotsPos st →
      LotsPos (List.foldl processTx st l) := by
    intro l
    induction l with
    | nil => intro st _ hst; exact hst
    | cons t ts ih =>
      intro st hl hst
      rw [List.foldl_cons]
      exact ih (processTx st t) (fun x hx => hl x (by simp [hx]))
        (processTx_pos st t hst (hl t (by simp)))
  refine main txs Ledger.init h ?_
  intro sym queue hlk
  simp [Ledger.init, List.lookup] at hlk

/-! ## Maximum over a list of dates -/

theorem foldl_max_le_self (l : List ℤ) (a : ℤ) : a ≤ l.foldl max a := by
  induction l generalizing a with
  | nil => simp
  | cons x xs ih => exact le_trans (le_max_left a x) (ih (max a x))

theorem foldl_max_le (l : List ℤ) (a : ℤ) : ∀ x ∈ l, x ≤ l.foldl max a := by
  induction l generalizing a with
  | nil => simp
  | cons x xs ih =>
    intro y hy
    rcases List.mem_cons.mp hy with hy | hy
    · subst hy
      exact le_trans (le_max_right a y) (foldl_max_le_self xs (max a y))
    · exact ih (max a x) y hy

theorem foldl_max_mem (l : List ℤ) (a : ℤ) : l.foldl max a = a ∨ l.foldl max a ∈ l := by
  induction l generalizing a with
  | nil => simp
  | cons x xs ih =>
    rw [List.foldl_cons]
    rcases ih (max a x) with h | h
    · rcases max_choice a x with hm | hm
      · left; rw [h, hm]
      · right; rw [h, hm]; simp
    · right; simp [h]

/-! ## Claim theorems -/

/-- C5: the signed `amount` field is authoritative whenever present and
non-zero: a BUY's cost is `abs(amount)` and a SELL's total proceeds is
`amount`; otherwise they fall back to `quantity*price + commission`
(BUY) resp. `quantity*price - commission` (SELL). -/
theorem amount_authoritative (tx : Tx) :
    (∀ a : ℚ, tx.amount = some a → a ≠ 0 →
        buyCost tx = some |a| ∧ sellProceeds tx = some a) ∧
    (∀ p : ℚ, (tx.amount = none ∨ tx.amount = some 0) → tx.price = some p →
        buyCost tx = some (tx.quantity * p + tx.commission) ∧
        sellProceeds tx = some (tx.quantity * p - tx.commission)) := by
  constructor
  · intro a ha hne
    constructor <;> simp [buyCost, sellProceeds, ha, hne]
  · intro p hA hp
    rcases hA with hA | hA <;>
      constructor <;> simp [buyCost, sellProceeds, hA, hp, oadd, osub, omul]

/-- C5 witness: a BUY with `amount = -35` has cost `35`, regardless of
`quantity*price + commission = 31`. -/
theorem amount_authoritative_witness :
    buyCost ⟨0, "A", .BUY, 10, some 3, 1, some (-35), "CAD", ""⟩ = some 35 := by
  have h := (amount_authoritative ⟨0, "A", .BUY, 10, some 3, 1, some (-35), "CAD", ""⟩).1
    (-35) rfl (by norm_num)
  rw [h.1]
  norm_num

/-- C9 counterexample: a BUY (resp. SELL) whose `amount` and `price` are
both missing gets cost (resp. proceeds) NaN — modelled `none` — and not `0`
as the claim states. -/
theorem missing_price_counterexample :
    buyCost ⟨0, "A", .BUY, 5, none, 2, none, "CAD", ""⟩ = none ∧
    sellProceeds ⟨0, "A", .SELL, 5, none, 2, none, "CAD", ""⟩ = none ∧
    buyCost ⟨0, "A", .BUY, 5, none, 2, none, "CAD", ""⟩ ≠ some 0 := by
  refine ⟨rfl, rfl, ?_⟩
  decide

/-- C9 amended: when `amount` is missing or zero and `price` is missing,
the computed cost/proceeds is NaN (`none`), not 0; processing still
continues without error — a BUY appends a lot whose cost is NaN. -/
theorem missing_price_nan (tx : Tx) (hA : tx.amount = none ∨ tx.amount = some 0)
    (hP : tx.price = none) :
    buyCost tx = none ∧ sellProceeds tx = none ∧
    (tx.action = .BUY → ∀ st : Ledger, st.carryover = [] →
      List.lookup tx.symbol (processTx st tx).lots
        = some (((List.lookup tx.symbol st.lots).getD []) ++ [mkBuyLot tx]) ∧
      (mkBuyLot tx).cost = none) := by
  have hbc : buyCost tx = none := by
    rcases hA with hA | hA <;> simp [buyCost, hA, hP, oadd, omul]
  have hsp : sellProceeds tx = none := by
    rcases hA with hA | hA <;> simp [sellProceeds, hA, hP, osub, omul]
  refine ⟨hbc, hsp, ?_⟩
  intro hbuy st hc
  constructor
  · simp only [processTx, hbuy]
    rw [processBuy_empty_carry st tx hc]
    simp [lookup_setAssoc]
  · simp [mkBuyLot, hbc]

/-- C9 witness for the amended claim, at a concrete BUY with both fields
missing. -/
theorem missing_price_nan_witness :
    buyCost ⟨0, "B", .BUY, 1, none, 0, none, "CAD", ""⟩ = none :=
  (missing_price_nan ⟨0, "B", .BUY, 1, none, 0, none, "CAD", ""⟩ (Or.inl rfl) rfl).1

/-- C10: the derived holding's currency is the currency of the first
remaining (valid) lot in queue order; all other remaining lots' currencies
are ignored. -/
theorem holding_currency_first_lot (sym : String) (symbolLots : List Lot) (l0 : Lot)
    (ls : List Lot) (h : validLots symbolLots = l0 :: ls) :
    ∃ hd, holdingOf sym symbolLots = some hd ∧ hd.currency = l0.currency := by
  unfold holdingOf
  rw [h]
  exact ⟨_, rfl, rfl⟩

/-- C10 witness: a USD lot below the validity threshold is skipped and the
holding reports the currency of the first surviving lot (CAD), ignoring a
later USD lot. -/
theorem holding_currency_first_lot_witness :
    ∃ hd, holdingOf "X"
        [⟨0, 1/100000, some 1, some 1, 0, "USD", ""⟩,
         ⟨1, 5, some 10, some 2, 0, "CAD", ""⟩,
         ⟨2, 7, some 7, some 1, 0, "USD", ""⟩] = some hd ∧
      hd.currency = "CAD" := by
  refine holding_currency_first_lot "X" _ ⟨1, 5, some 10, some 2, 0, "CAD", ""⟩
    [⟨2, 7, some 7, some 1, 0, "USD", ""⟩] ?_
  norm_num [validLots, List.filter]

/-- C8 counterexample: two lots bought on days 0 and 5; the derived holding
reports trade date 5 (the **latest** lot date, per line 386-387 of the
source), not the earliest lot date 0 as the claim states. -/
theorem holding_date_counterexample :
    (calculate_holdings
        [⟨0, "A", .BUY, 10, some 10, 0, some (-100), "CAD", ""⟩,
         ⟨5, "A", .BUY, 10, some 20, 0, some (-200), "CAD", ""⟩]).1.map Holding.tradeDate
      = [some 5] ∧
    List.map Lot.tradeDate
        ((List.lookup "A" (runLedger
          [⟨0, "A", .BUY, 10, some 10, 0, some (-100), "CAD", ""⟩,
           ⟨5, "A", .BUY, 10, some 20, 0, some (-200), "CAD", ""⟩]).lots).getD [])
      = [0, 5] ∧
    (5 : ℤ) ≠ 0 := by
  refine ⟨?_, ?_, by decide⟩
  · simp +decide [calculate_holdings, runLedger, Ledger.init, processTx, processBuy,
      buyCost, holdingsOf, holdingOf, validLots, sumQty, sumCosts, osum, oadd, omul, odivq,
      setAssoc, isMergerReceipt, isMergerDesc, List.lookup]
    norm_num [List.filterMap, List.filter]
  · simp +decide [calculate_holdings, runLedger, Ledger.init, processTx, processBuy,
      buyCost, holdingsOf, holdingOf, validLots, sumQty, sumCosts, osum, oadd, omul, odivq,
      setAssoc, isMergerReceipt, isMergerDesc, List.lookup]

/-- C8 amended: the derived holding's quantity is the total remaining valid
quantity, its purchase price is total remaining cost over total quantity,
and its trade date is the **latest** (maximum) lot date among the remaining
valid lots — not the earliest. -/
theorem holding_latest_date (sym : String) (symbolLots : List Lot) (l0 : Lot)
    (ls : List Lot) (h : validLots symbolLots = l0 :: ls) :
    ∃ hd, holdingOf sym symbolLots = some hd ∧
      hd.quantity = sumQty (validLots symbolLots) ∧
      (0 < hd.quantity → hd.purchasePrice = odivq (sumCosts (validLots symbolLots)) hd.quantity) ∧
      ∃ M : ℤ, hd.tradeDate = some M ∧ M ∈ (validLots symbolLots).map Lot.tradeDate ∧
        ∀ d ∈ (validLots symbolLots).map Lot.tradeDate, d ≤ M := by
  unfold holdingOf
  rw [h]
  refine ⟨_, rfl, rfl, ?_, ?_⟩
  · intro hq
    simp only at hq ⊢
    rw [if_pos hq]
  · refine ⟨(ls.map Lot.tradeDate).foldl max l0.tradeDate, rfl, ?_, ?_⟩
    · rcases foldl_max_mem (ls.map Lot.tradeDate) l0.tradeDate with hm | hm
      · rw [List.map_cons, hm]
        exact List.mem_cons_self _ _
      · rw [List.map_cons]
        exact List.mem_cons_of_mem _ hm
    · intro d hd
      rw [List.map_cons] at hd
      rcases List.mem_cons.mp hd with hd0 | hdm
      · rw [hd0]; exact foldl_max_le_self _ _
      · exact foldl_max_le _ _ d hdm

/-- C8 witness for the amended claim: the holding over lots dated 0 and 5
carries trade date 5. -/
theorem holding_latest_date_witness :
    ∃ hd, holdingOf "A"
        [⟨0, 10, some 100, some 10, 0, "CAD", ""⟩,
         ⟨5, 10, some 200, some 20, 0, "CAD", ""⟩] = some hd ∧
      hd.quantity = sumQty (validLots
        [⟨0, 10, some 100, some 10, 0, "CAD", ""⟩,
         ⟨5, 10, some 200, some 20, 0, "CAD", ""⟩]) ∧
      (0 < hd.quantity → hd.purchasePrice = odivq (sumCosts (validLots
        [⟨0, 10, some 100, some 10, 0, "CAD", ""⟩,
         ⟨5, 10, some 200, some 20, 0, "CAD", ""⟩])) hd.quantity) ∧
      ∃ M : ℤ, hd.tradeDate = some M ∧ M ∈ (validLots
        [⟨0, 10, some 100, some 10, 0, "CAD", ""⟩,
         ⟨5, 10, some 200, some 20, 0, "CAD", ""⟩]).map Lot.tradeDate ∧
        ∀ d ∈ (validLots
          [⟨0, 10, some 100, some 10, 0, "CAD", ""⟩,
           ⟨5, 10, some 200, some 20, 0, "CAD", ""⟩]).map Lot.tradeDate, d ≤ M :=
  holding_latest_date "A" _ ⟨0, 10, some 100, some 10, 0, "CAD", ""⟩
    [⟨5, 10, some 200, some 20, 0, "CAD", ""⟩] (by norm_num [validLots, List.filter])

theorem keyLE_trans : ∀ a b c : Tx, keyLE a b = true → keyLE b c = true → keyLE a c = true := by
  intro a b c hab hbc
  simp only [keyLE, decide_eq_true_eq] at hab hbc ⊢
  omega

theorem keyLE_total : ∀ a b : Tx, (keyLE a b || keyLE b a) = true := by
  intro a b
  simp only [keyLE, Bool.or_eq_true, decide_eq_true_eq]
  omega

/-- C4: `get_action_rank` gives 0 to merger-surrender SELLs, 1 to all BUYs,
2 to ordinary SELLs and 3 to DIVIDENDs; the stream handed to the ledger is
sorted by `(date, action_rank)`, so among same-day records ranks are
non-decreasing: every merger surrender precedes every BUY, every BUY
precedes every ordinary SELL, and every ordinary SELL precedes every
DIVIDEND of that day. -/
theorem sorted_by_date_and_rank (txs : List Tx) :
    (∀ tx : Tx,
      (tx.action = .SELL → isMergerDesc tx.description = true →
        containsSub tx.description "SURRENDERED" = true → get_action_rank tx = 0) ∧
      (tx.action = .BUY → get_action_rank tx = 1) ∧
      (tx.action = .SELL →
        (isMergerDesc tx.description && containsSub tx.description "SURRENDERED") = false →
        get_action_rank tx = 2) ∧
      (tx.action = .DIV → get_action_rank tx = 3)) ∧
    List.Pairwise
      (fun a b => a.date < b.date ∨ (a.date = b.date ∧ get_action_rank a ≤ get_action_rank b))
      (orderedStream txs) := by
  constructor
  · intro tx
    refine ⟨?_, ?_, ?_, ?_⟩
    · intro ha hm hsur
      rw [get_action_rank, if_pos ⟨ha, hm, hsur⟩]
    · intro ha
      rw [get_action_rank, if_neg (by simp [ha]), if_pos ha]
    · intro ha hms
      have hnot : ¬(tx.action = .SELL ∧ isMergerDesc tx.description = true ∧
          containsSub tx.description "SURRENDERED" = true) := by
        rintro ⟨-, h1, h2⟩
        rw [h1, h2] at hms
        simp at hms
      rw [get_action_rank, if_neg hnot, if_neg (by simp [ha]), if_pos ha]
    · intro ha
      rw [get_action_rank, if_neg (by simp [ha]), if_neg (by simp [ha]),
        if_neg (by simp [ha]), if_pos ha]
  · have hs : List.Pairwise (fun a b => keyLE a b = true) (txs.mergeSort keyLE) :=
      List.sorted_mergeSort keyLE_trans keyLE_total txs
    have hp : List.Pairwise
        (fun a b => a.date < b.date ∨ (a.date = b.date ∧ get_action_rank a ≤ get_action_rank b))
        (sortTxs txs) := by
      rw [sortTxs]
      refine hs.imp ?_
      intro a b hab
      simpa [keyLE, decide_eq_true_eq] using hab
    exact List.Pairwise.sublist (List.filter_sublist _) hp

/-- C4 witness: the rank table evaluated at a concrete BUY. -/
theorem sorted_by_date_and_rank_witness :
    get_action_rank ⟨0, "A", .BUY, 1, none, 0, none, "CAD", ""⟩ = 1 :=
  ((sorted_by_date_and_rank []).1 ⟨0, "A", .BUY, 1, none, 0, none, "CAD", ""⟩).2.1 rfl

/-- C1: a SELL consumes the lot queue from the front.  With two queued lots,
a SELL covered by the head lot consumes only the head lot: a fully consumed
head lot is removed, a partially consumed one keeps the tail of its
proportional cost `lot.cost * (sold / lot.quantity)`, the second lot is
untouched, and the realized P&L charges only the head lot's per-share
cost. -/
theorem fifo_sell_front (sym : String) (l1 l2 : Lot) (tx : Tx) (c1 P : ℚ)
    (ha : tx.action = .SELL) (hsym : tx.symbol = sym)
    (hms : isMergerSurrender tx.description = false)
    (hc : l1.cost = some c1) (hP : sellProceeds tx = some P)
    (h0 : 0 < tx.quantity) (hle : tx.quantity ≤ l1.quantity) :
    (tx.quantity < l1.quantity →
      List.lookup sym (processTx ⟨[(sym, [l1, l2])], [], []⟩ tx).lots
        = some [{ l1 with quantity := l1.quantity - tx.quantity, cost := some (c1 - c1 * (tx.quantity / l1.quantity)) }, l2]) ∧
    (tx.quantity = l1.quantity →
      List.lookup sym (processTx ⟨[(sym, [l1, l2])], [], []⟩ tx).lots = some [l2]) ∧
    (processTx ⟨[(sym, [l1, l2])], [], []⟩ tx).realized
      = [(sym, [(tx.currency, some (P - c1 * (tx.quantity / l1.quantity)))])] := by
  subst hsym
  have hq1 : 0 < l1.quantity := lt_of_lt_of_le h0 hle
  have hlk : List.lookup tx.symbol [(tx.symbol, [l1, l2])] = some [l1, l2] := by
    simp [List.lookup]
  have hTx : processTx ⟨[(tx.symbol, [l1, l2])], [], []⟩ tx
      = processSell ⟨[(tx.symbol, [l1, l2])], [], []⟩ tx := by
    simp only [processTx, ha]
  have hri : realizedInit ⟨[(tx.symbol, [l1, l2])], [], []⟩ tx = [(tx.symbol, [])] := by
    unfold realizedInit
    simp [List.lookup, setAssoc]
  have hps := processSell_some ⟨[(tx.symbol, [l1, l2])], [], []⟩ tx [l1, l2] hlk
  rw [hri] at hps
  have hpnl : (List.lookup tx.symbol [(tx.symbol, ([] : List (String × OQ)))]).getD []
      = ([] : List (String × OQ)) := by
    simp [List.lookup]
  rw [hpnl, hms, hP] at hps
  rcases eq_or_lt_of_le hle with heq | hlt
  · -- full head lot consumed
    have hloop : sellLoop tx.symbol tx.currency tx.quantity (some P) false tx.quantity
        [l1, l2] [] [] = ([l2], [(tx.currency, some (P - c1 * (tx.quantity / l1.quantity)))], []) := by
      rw [sellLoop, if_pos h0, if_pos (le_of_eq heq.symm)]
      simp only [Bool.false_eq_true, if_false]
      rw [show tx.quantity - l1.quantity = 0 by rw [heq]; ring]
      rw [sellLoop, if_neg (lt_irrefl 0)]
      rw [hc, heq]
      simp [setAssoc, List.lookup, oadd, osub, omul,
        div_self (ne_of_gt hq1), mul_one]
    rw [hTx, hps, hloop]
    refine ⟨fun hl => absurd heq (ne_of_lt hl), fun _ => ?_, ?_⟩
    · simp [setAssoc, List.lookup]
    · simp [setAssoc]
  · -- partial head lot consumed
    have hloop : sellLoop tx.symbol tx.currency tx.quantity (some P) false tx.quantity
        [l1, l2] [] []
        = ([{ l1 with quantity := l1.quantity - tx.quantity, cost := some (c1 - c1 * (tx.quantity / l1.quantity)) }, l2],
           [(tx.currency, some (P - c1 * (tx.quantity / l1.quantity)))], []) := by
      rw [sellLoop, if_pos h0, if_neg (not_le.mpr hlt)]
      rw [hc]
      simp [setAssoc, List.lookup, oadd, osub, omul,
        div_self (ne_of_gt h0), mul_one]
    rw [hTx, hps, hloop]
    refine ⟨fun _ => ?_, fun he => absurd he (ne_of_lt hlt), ?_⟩
    · simp [setAssoc, List.lookup]
    · simp [setAssoc]

/-- C1 witness: lots of 10 shares at cost 100 (then 10 at 200); selling 5
shares for proceeds 150 charges cost `100 * (5/10) = 50` and realizes
`150 - 50 = 100`, leaving the first lot at 5 shares / cost 50. -/
theorem fifo_sell_front_witness :
    (processTx ⟨[("A", [⟨0, 10, some 100, some 10, 0, "CAD", ""⟩,
                        ⟨5, 10, some 200, some 20, 0, "CAD", ""⟩])], [], []⟩
      ⟨10, "A", .SELL, 5, some 30, 0, some 150, "CAD", ""⟩).realized
      = [("A", [("CAD", some 100)])] := by
  have h := (fifo_sell_front "A" ⟨0, 10, some 100, some 10, 0, "CAD", ""⟩
    ⟨5, 10, some 200, some 20, 0, "CAD", ""⟩
    ⟨10, "A", .SELL, 5, some 30, 0, some 150, "CAD", ""⟩ 100 150
    rfl rfl (by decide) rfl (by norm_num [sellProceeds]) (by norm_num) (by norm_num)).2.2
  rw [h]
  norm_num

theorem omul_one_right (P : OQ) : omul P (some 1) = P := by
  cases P <;> simp [omul]

/-- C2: BUYs of one symbol followed by a single non-merger SELL that fully
liquidates the position realize exactly `total_proceeds - total cost of all
the BUYs` for that symbol and the SELL's currency. -/
theorem conservation (sym curr : String) (buys : List Tx) (selltx : Tx)
    (b0 : Tx) (bs : List Tx) (hcons : buys = b0 :: bs)
    (hb : ∀ b ∈ buys, b.action = .BUY ∧ b.symbol = sym ∧ 0 < b.quantity)
    (hs : selltx.action = .SELL) (hssym : selltx.symbol = sym)
    (hcurr : selltx.currency = curr)
    (hqty : selltx.quantity = (buys.map Tx.quantity).sum)
    (hnotms : isMergerSurrender selltx.description = false) :
    List.lookup curr ((List.lookup sym (runLedger (buys ++ [selltx])).realized).getD [])
      = some (osub (sellProceeds selltx) (osum (buys.map buyCost))) := by
  subst hssym
  subst hcurr
  have hrun : runLedger buys = ⟨[(selltx.symbol, buys.map mkBuyLot)], [], []⟩ :=
    runLedger_buys selltx.symbol buys (fun b h => ⟨(hb b h).1, (hb b h).2.1⟩) b0 bs hcons
  have happ : runLedger (buys ++ [selltx]) = processTx (runLedger buys) selltx := by
    rw [runLedger, runLedger, List.foldl_append, List.foldl_cons, List.foldl_nil]
  have hmapq : (buys.map mkBuyLot).map Lot.quantity = buys.map Tx.quantity := by
    rw [List.map_map]
    exact List.map_congr_left (fun b _ => rfl)
  have hmapc : (buys.map mkBuyLot).map Lot.cost = buys.map buyCost := by
    rw [List.map_map]
    exact List.map_congr_left (fun b _ => rfl)
  have hsq : sumQty (buys.map mkBuyLot) = selltx.quantity := by
    rw [sumQty, hmapq, hqty]
  have hpos : ∀ lot ∈ buys.map mkBuyLot, 0 < lot.quantity := by
    intro lot hl
    obtain ⟨b, hbm, rfl⟩ := List.mem_map.mp hl
    exact (hb b hbm).2.2
  have hqne : buys.map mkBuyLot ≠ [] := by
    subst hcons; simp
  have hQpos : 0 < selltx.quantity := by
    rw [← hsq]
    subst hcons
    rw [List.map_cons, sumQty_cons]
    have h1 : 0 < (mkBuyLot b0).quantity := hpos _ (by simp)
    have h2 : 0 ≤ sumQty (bs.map mkBuyLot) :=
      sumQty_nonneg _ (fun l hl => hpos l (by simp [hl]))
    linarith
  have hlk : List.lookup selltx.symbol [(selltx.symbol, buys.map mkBuyLot)]
      = some (buys.map mkBuyLot) := by
    simp [List.lookup]
  have hps := processSell_some ⟨[(selltx.symbol, buys.map mkBuyLot)], [], []⟩ selltx
    (buys.map mkBuyLot) hlk
  have hri : realizedInit ⟨[(selltx.symbol, buys.map mkBuyLot)], [], []⟩ selltx
      = [(selltx.symbol, [])] := by
    unfold realizedInit
    simp [List.lookup, setAssoc]
  rw [hri] at hps
  have hpnl : (List.lookup selltx.symbol
      [(selltx.symbol, ([] : List (String × OQ)))]).getD [] = ([] : List (String × OQ)) := by
    simp [List.lookup]
  rw [hpnl, hnotms] at hps
  obtain ⟨h1, h2, h3, h4⟩ := sellLoop_liquidate selltx.symbol selltx.currency selltx.quantity
    (sellProceeds selltx) (buys.map mkBuyLot) selltx.quantity [] [] hpos (le_of_eq hsq)
  rw [happ, hrun]
  simp only [processTx, hs]
  rw [hps]
  simp only
  rw [lookup_setAssoc, if_pos rfl, Option.getD_some, h3 hqne]
  rw [hsq, div_self (ne_of_gt hQpos), omul_one_right, hmapc]
  simp [oadd_zero_left]

/-- C2 witness: buys of 10 shares for 100 and 10 shares for 200, fully
liquidated for proceeds 600, realize exactly `600 - 300 = 300`. -/
theorem conservation_witness :
    List.lookup "CAD" ((List.lookup "A" (runLedger
      [⟨1, "A", .BUY, 10, some 10, 0, some (-100), "CAD", ""⟩,
       ⟨5, "A", .BUY, 10, some 20, 0, some (-200), "CAD", ""⟩,
       ⟨9, "A", .SELL, 20, some 30, 0, some 600, "CAD", ""⟩]).realized).getD [])
      = some (some 300) := by
  have h := conservation "A" "CAD"
    [⟨1, "A", .BUY, 10, some 10, 0, some (-100), "CAD", ""⟩,
     ⟨5, "A", .BUY, 10, some 20, 0, some (-200), "CAD", ""⟩]
    ⟨9, "A", .SELL, 20, some 30, 0, some 600, "CAD", ""⟩
    ⟨1, "A", .BUY, 10, some 10, 0, some (-100), "CAD", ""⟩
    [⟨5, "A", .BUY, 10, some 20, 0, some (-200), "CAD", ""⟩] rfl
    (by intro b hbm
        simp only [List.mem_cons, List.not_mem_nil, or_false] at hbm
        rcases hbm with rfl | rfl <;> exact ⟨rfl, rfl, by norm_num⟩)
    rfl rfl rfl (by simp; norm_num) (by decide)
  rw [show ([⟨1, "A", .BUY, 10, some 10, 0, some (-100), "CAD", ""⟩,
       ⟨5, "A", .BUY, 10, some 20, 0, some (-200), "CAD", ""⟩] : List Tx)
       ++ [⟨9, "A", .SELL, 20, some 30, 0, some 600, "CAD", ""⟩]
      = [⟨1, "A", .BUY, 10, some 10, 0, some (-100), "CAD", ""⟩,
         ⟨5, "A", .BUY, 10, some 20, 0, some (-200), "CAD", ""⟩,
         ⟨9, "A", .SELL, 20, some 30, 0, some 600, "CAD", ""⟩] from rfl] at h
  rw [h]
  norm_num [sellProceeds, buyCost, osum, osub, oadd, omul]

/-- C6: a SELL for a symbol with no lot entry leaves the ledger unchanged
(silently dropped), and a SELL whose quantity covers the whole queue empties
that symbol's queue, matches the covered portion normally into realized
P&L, and touches no other symbol's lots and no carryover — the uncovered
remainder is silently dropped, with no error signalled. -/
theorem oversell_dropped (st : Ledger) (tx : Tx) (ha : tx.action = .SELL)
    (hms : isMergerSurrender tx.description = false) :
    (List.lookup tx.symbol st.lots = none → processTx st tx = st) ∧
    (∀ queue, List.lookup tx.symbol st.lots = some queue →
      (∀ lot ∈ queue, 0 < lot.quantity) → sumQty queue ≤ tx.quantity →
      List.lookup tx.symbol (processTx st tx).lots = some [] ∧
      (∀ k, k ≠ tx.symbol → List.lookup k (processTx st tx).lots = List.lookup k st.lots) ∧
      (processTx st tx).carryover = st.carryover ∧
      (queue ≠ [] →
        List.lookup tx.currency ((List.lookup tx.symbol (processTx st tx).realized).getD [])
          = some (oadd
              ((List.lookup tx.currency
                ((List.lookup tx.symbol st.realized).getD [])).getD (some 0))
              (osub (omul (sellProceeds tx) (some (sumQty queue / tx.quantity)))
                (osum (queue.map Lot.cost)))))) := by
  have hTx : processTx st tx = processSell st tx := by simp only [processTx, ha]
  constructor
  · intro h
    rw [hTx]
    exact processSell_none st tx h
  · intro queue hlk hpos hsum
    have hps := processSell_some st tx queue hlk
    rw [hms] at hps
    obtain ⟨h1, h2, h3, h4⟩ := sellLoop_liquidate tx.symbol tx.currency tx.quantity
      (sellProceeds tx) queue tx.quantity
      ((List.lookup tx.symbol (realizedInit st tx)).getD []) st.carryover hpos hsum
    refine ⟨?_, ?_, ?_, ?_⟩
    · rw [hTx, hps]
      simp only
      rw [lookup_setAssoc, if_pos rfl, h1]
    · intro k hk
      rw [hTx, hps]
      simp only
      rw [lookup_setAssoc, if_neg hk]
    · rw [hTx, hps]
      exact h2
    · intro hqne
      rw [hTx, hps]
      simp only
      rw [lookup_setAssoc, if_pos rfl, Option.getD_some, h3 hqne,
        realizedInit_lookup st tx, Option.getD_some]

/-- C6 witness: selling 25 shares against a single 10-share lot empties the
queue without error; the covered 10 shares realize `300*(10/25) - 100 = 20`. -/
theorem oversell_dropped_witness :
    List.lookup "A" (processTx ⟨[("A", [⟨0, 10, some 100, some 10, 0, "CAD", ""⟩])], [], []⟩
      ⟨1, "A", .SELL, 25, some 30, 0, some 300, "CAD", ""⟩).lots = some [] :=
  ((oversell_dropped ⟨[("A", [⟨0, 10, some 100, some 10, 0, "CAD", ""⟩])], [], []⟩
      ⟨1, "A", .SELL, 25, some 30, 0, some 300, "CAD", ""⟩ rfl (by decide)).2
    [⟨0, 10, some 100, some 10, 0, "CAD", ""⟩] (by simp [List.lookup])
    (by intro l hl
        simp only [List.mem_cons, List.not_mem_nil, or_false] at hl
        subst hl
        norm_num)
    (by norm_num [sumQty])).1

/-- C3 counterexample: a merger-surrender SELL of `AAA` (lot cost 1000)
followed by a merger-receipt BUY of a **different** symbol `BBB`: the
carryover stays parked under `AAA` and the `BBB` lot's cost is its native
cost 0, not 1000 as the claim states. -/
theorem merger_carryover_counterexample :
    List.lookup "BBB" (runLedger
      [⟨0, "AAA", .BUY, 100, some 10, 0, some (-1000), "CAD", ""⟩,
       ⟨1, "AAA", .SELL, 100, some 0, 0, some 0, "CAD", "SHS SURRENDERED ON MERGER"⟩,
       ⟨1, "BBB", .BUY, 50, some 0, 0, some 0, "CAD", "SHS RECEIVED ON MERGER"⟩]).lots
      = some [⟨1, 50, some 0, some 0, 0, "CAD", "SHS RECEIVED ON MERGER"⟩] ∧
    (runLedger
      [⟨0, "AAA", .BUY, 100, some 10, 0, some (-1000), "CAD", ""⟩,
       ⟨1, "AAA", .SELL, 100, some 0, 0, some 0, "CAD", "SHS SURRENDERED ON MERGER"⟩,
       ⟨1, "BBB", .BUY, 50, some 0, 0, some 0, "CAD", "SHS RECEIVED ON MERGER"⟩]).carryover
      = [("AAA", some 1000)] ∧
    some (0 : ℚ) ≠ some (1000 : ℚ) := by
  refine ⟨?_, ?_, by decide⟩ <;>
    simp +decide [runLedger, Ledger.init, processTx, processBuy, processSell, realizedInit,
      buyCost, sellProceeds, sellLoop, setAssoc, removeAssoc, isMergerReceipt,
      isMergerSurrender, isMergerDesc, oadd, osub, omul, odivq, List.lookup]

/-- C3 amended: a merger-surrender SELL parks the consumed lot cost in the
carryover under the **surrendered** symbol and realizes no P&L; a
merger-receipt BUY consumes a carryover entry only when one exists under
the **receipt's own** symbol (the sole cross-symbol path is the hard-coded
`WCP` fallback), in which case the new lot's cost is its native cost plus
the carried-forward basis and the entry is popped. -/
theorem merger_carryover (sym : String) (l : Lot) (C : ℚ) (txs txb : Tx)
    (hsa : txs.action = .SELL) (hssym : txs.symbol = sym)
    (hms : isMergerSurrender txs.description = true)
    (hcost : l.cost = some C) (hq : txs.quantity = l.quantity) (h0 : 0 < l.quantity) :
    (processTx ⟨[(sym, [l])], [], []⟩ txs).carryover = [(sym, some C)] ∧
    (processTx ⟨[(sym, [l])], [], []⟩ txs).realized = [(sym, [])] ∧
    List.lookup sym (processTx ⟨[(sym, [l])], [], []⟩ txs).lots = some [] ∧
    (∀ st : Ledger, txb.action = .BUY → isMergerReceipt txb.description = true →
      ∀ v : OQ, List.lookup txb.symbol st.carryover = some v →
      List.lookup txb.symbol (processTx st txb).lots
        = some (((List.lookup txb.symbol st.lots).getD [])
            ++ [{ tradeDate := txb.date, quantity := txb.quantity,
                  cost := oadd (buyCost txb) v,
                  purchasePrice := if 0 < txb.quantity
                    then odivq (oadd (buyCost txb) v) txb.quantity else txb.price,
                  commission := txb.commission, currency := txb.currency,
                  description := txb.description }]) ∧
      (processTx st txb).carryover = removeAssoc st.carryover txb.symbol) := by
  subst hssym
  have hlk : List.lookup txs.symbol [(txs.symbol, [l])] = some [l] := by
    simp [List.lookup]
  have hps := processSell_some ⟨[(txs.symbol, [l])], [], []⟩ txs [l] hlk
  have hri : realizedInit ⟨[(txs.symbol, [l])], [], []⟩ txs = [(txs.symbol, [])] := by
    unfold realizedInit
    simp [List.lookup, setAssoc]
  rw [hri] at hps
  have hpnl : (List.lookup txs.symbol
      [(txs.symbol, ([] : List (String × OQ)))]).getD [] = ([] : List (String × OQ)) := by
    simp [List.lookup]
  rw [hpnl, hms] at hps
  have hloop : sellLoop txs.symbol txs.currency txs.quantity (sellProceeds txs) true
      txs.quantity [l] [] [] = ([], [], [(txs.symbol, some C)]) := by
    rw [sellLoop, if_pos (hq ▸ h0), if_pos (le_of_eq hq.symm)]
    simp only [if_true]
    rw [sellLoop.eq_def]
    simp [hcost, setAssoc, List.lookup, oadd]
  have hTx : processTx ⟨[(txs.symbol, [l])], [], []⟩ txs
      = processSell ⟨[(txs.symbol, [l])], [], []⟩ txs := by
    simp only [processTx, hsa]
  refine ⟨?_, ?_, ?_, ?_⟩
  · rw [hTx, hps, hloop]
  · rw [hTx, hps, hloop]
    simp [setAssoc]
  · rw [hTx, hps, hloop]
    simp [setAssoc, List.lookup]
  · intro st hba hmr v hcv
    have hred : processBuy st txb
        = { st with
            lots := setAssoc st.lots txb.symbol (((List.lookup txb.symbol st.lots).getD [])
              ++ [{ tradeDate := txb.date, quantity := txb.quantity,
                    cost := oadd (buyCost txb) v,
                    purchasePrice := if 0 < txb.quantity
                      then odivq (oadd (buyCost txb) v) txb.quantity else txb.price,
                    commission := txb.commission, currency := txb.currency,
                    description := txb.description }])
            carryover := removeAssoc st.carryover txb.symbol } := by
      unfold processBuy
      rw [hmr, hcv]
      simp
    constructor
    · simp only [processTx, hba]
      rw [hred]
      simp only
      rw [lookup_setAssoc, if_pos rfl]
    · simp only [processTx, hba]
      rw [hred]

/-- C3 witness for the amended claim: surrendering a 100-share lot of cost
1000 parks 1000 under the surrendered symbol with no realized P&L. -/
theorem merger_carryover_witness :
    (processTx ⟨[("OLD", [⟨0, 100, some 1000, some 10, 0, "CAD", ""⟩])], [], []⟩
        ⟨1, "OLD", .SELL, 100, some 0, 0, some 0, "CAD", "SHS SURRENDERED ON MERGER"⟩).carryover
      = [("OLD", some 1000)] ∧
    (processTx ⟨[("OLD", [⟨0, 100, some 1000, some 10, 0, "CAD", ""⟩])], [], []⟩
        ⟨1, "OLD", .SELL, 100, some 0, 0, some 0, "CAD", "SHS SURRENDERED ON MERGER"⟩).realized
      = [("OLD", [])] := by
  have h := merger_carryover "OLD" ⟨0, 100, some 1000, some 10, 0, "CAD", ""⟩ 1000
    ⟨1, "OLD", .SELL, 100, some 0, 0, some 0, "CAD", "SHS SURRENDERED ON MERGER"⟩
    ⟨2, "NEW", .BUY, 50, some 0, 0, some 0, "CAD", "SHS RECEIVED ON MERGER"⟩
    rfl rfl (by decide) rfl rfl (by norm_num)
  exact ⟨h.1, h.2.1⟩

/-- C7 counterexample: after buying 1 share and selling `1999999/2000000`
of it, a lot of quantity `1/2000000 < 1e-6` **remains in the queue** — the
ledger does not remove a lot as soon as its quantity drops below `1e-6`. -/
theorem lot_epsilon_counterexample :
    List.map Lot.quantity ((List.lookup "A" (runLedger
      [⟨0, "A", .BUY, 1, some 100, 0, some (-100), "CAD", ""⟩,
       ⟨1, "A", .SELL, 1999999/2000000, some 100, 0, some 1, "CAD", ""⟩]).lots).getD [])
      = [1/2000000] ∧
    (1/2000000 : ℚ) < 1/1000000 ∧ (0 : ℚ) < 1/2000000 := by
  refine ⟨?_, by norm_num, by norm_num⟩
  norm_num [runLedger, Ledger.init, processTx, processBuy, processSell, realizedInit,
    buyCost, sellProceeds, sellLoop, setAssoc, oadd, osub, omul, odivq, List.lookup,
    show isMergerReceipt "" = false from by decide,
    show isMergerSurrender "" = false from by decide,
    show (("A" : String) == "A") = true from by decide]

/-- C7 amended: (i) with positive-quantity BUYs every queued lot keeps
quantity > 0; (ii) a partially consumed lot keeps its cost-per-share
(`cost/quantity` is preserved by the proportional cost split); (iii) no
action other than BUY and SELL modifies lot state; (iv) lots are never
dropped from the queue for being small — instead lots with quantity ≤ 1e-4
(not 1e-6) are excluded when the holdings view is derived. -/
theorem lot_lifecycle (txs : List Tx) (sym curr : String) (Q : ℚ) (P : OQ) (isMS : Bool) :
    ((∀ tx ∈ txs, tx.action = .BUY → 0 < tx.quantity) → LotsPos (runLedger txs)) ∧
    (∀ (remaining : ℚ) (lot : Lot) (rest : List Lot) (pnlSym carry : List (String × OQ)),
      0 < remaining → remaining < lot.quantity →
      ∃ rlot : Lot,
        (sellLoop sym curr Q P isMS remaining (lot :: rest) pnlSym carry).1 = rlot :: rest ∧
        rlot.quantity = lot.quantity - remaining ∧
        odivq rlot.cost rlot.quantity = odivq lot.cost lot.quantity) ∧
    (∀ (st : Ledger) (tx : Tx), tx.action = .DIV ∨ tx.action = .OTHER → processTx st tx = st) ∧
    (∀ (s : String) (symbolLots : List Lot),
      (∀ lot ∈ symbolLots, lot.quantity ≤ 1/10000) → holdingOf s symbolLots = none) := by
  refine ⟨runLedger_pos txs, ?_, ?_, ?_⟩
  · intro remaining lot rest pnlSym carry h0 hlt
    have hq : 0 < lot.quantity := lt_trans h0 hlt
    refine ⟨{ lot with quantity := lot.quantity - remaining, cost := osub lot.cost (omul lot.cost (some (remaining / lot.quantity))) }, ?_, rfl, ?_⟩
    · rw [sellLoop, if_pos h0, if_neg (not_le.mpr hlt)]
      cases isMS <;> simp
    · cases hc : lot.cost with
      | none => simp [osub, omul, odivq]
      | some c =>
        simp only [osub, omul, odivq, Option.map_some']
        have hne : lot.quantity ≠ 0 := ne_of_gt hq
        have hne2 : lot.quantity - remaining ≠ 0 := ne_of_gt (by linarith)
        congr 1
        field_simp
        ring
  · intro st tx h
    rcases h with h | h <;> simp [processTx, h]
  · intro s symbolLots h
    unfold holdingOf
    have hf : validLots symbolLots = [] := by
      rw [validLots]
      rw [List.filter_eq_nil_iff]
      intro a ha
      simpa using not_lt.mpr (h a ha)
    rw [hf]

/-- C7 witness for the amended claim: a DIVIDEND leaves the ledger state
untouched. -/
theorem lot_lifecycle_witness :
    processTx ⟨[("A", [⟨0, 1, some 5, some 5, 0, "CAD", ""⟩])], [], []⟩
        ⟨3, "A", .DIV, 0, none, 0, some 10, "CAD", ""⟩
      = ⟨[("A", [⟨0, 1, some 5, some 5, 0, "CAD", ""⟩])], [], []⟩ :=
  (lot_lifecycle [] "A" "CAD" 1 (some 1) false).2.2.1 _ _ (Or.inl rfl)

end HoldingAnalyzer
